import Mathlib

/-!
Verification of the CDP transport / message-correlation layer and the IPC
protocol of the FluxStack-Desktop repository.

The definitions below are shallow embeddings of the corresponding
TypeScript functions:
  * `src/src/lib/cdp.ts`   — protocol client (`onMessage`, `sendMessage`,
    `close`), pipe framing, discovery polling (`continualTrying`).
  * `src/src/index.ts`     — CDP event dispatch and the post-setup health
    check.
  * `src/src/lib/idle.ts`  — host-side IPC (`onWindowMessage`,
    `sendToWindow`, `ipcApi.removeListener`).
  * `src/src/lib/scripts.ts` — page-side IPC mirror (`ipc._receive`).

JSON payload values are abstracted: CDP `result` payloads as `Nat`,
IPC data values as `JSVal` (which keeps JavaScript truthiness).
JavaScript objects used as keyed tables are modelled as association
lists with first-occurrence lookup (object keys are unique, which the
invariants below track where needed).
-/

namespace FluxDesktop

/-- Abstract JSON payload carried in a CDP `result` field. -/
abbrev Value := Nat

/-- JS object property lookup `tbl[k]` (first matching key, `undefined ↦ none`). -/
def jsGet {κ β : Type} [DecidableEq κ] : List (κ × β) → κ → Option β
  | [], _ => none
  | (k, v) :: rest, t => if k = t then some v else jsGet rest t

/-- JS `delete tbl[k]`: removes the first entry with key `k`. -/
def jsDelete {κ β : Type} [DecidableEq κ] : List (κ × β) → κ → List (κ × β)
  | [], _ => []
  | (k, v) :: rest, t => if k = t then rest else (k, v) :: jsDelete rest t

/-- JS object property assignment `tbl[k] = v` (overwrites the first entry
with key `k`, appends otherwise). -/
def jsSet {κ β : Type} [DecidableEq κ] : List (κ × β) → κ → β → List (κ × β)
  | [], k, v => [(k, v)]
  | (k1, v1) :: rest, k, v =>
    if k1 = k then (k, v) :: rest else (k1, v1) :: jsSet rest k v

/-- Inbound CDP envelope (`CDPMessage` in `cdp.ts`): `id`, `method` and
`result` are all optional on the wire; `paramsName` and `payload` stand for
`params.name` and `params.payload` as read by the dispatcher in `index.ts`. -/
structure CDPMessage where
  id : Option Nat
  method : Option String
  result : Option Value
  paramsName : Option String := none
  payload : Option String := none
  deriving DecidableEq

/-- State of one protocol-client connection (`cdp.ts` closure state):
`closed` flag, the private `msgId` counter, the pending-reply table
`onReply` (message id ↦ identity of the awaiting promise), and the
registered general message callbacks (by identity). -/
structure ClientState where
  closed : Bool
  msgId : Nat
  onReply : List (Nat × Nat)
  messageCallbacks : List Nat
  deriving DecidableEq

/-- The freshly constructed connection: open, counter at 0, empty tables. -/
def initClient : ClientState :=
  { closed := false, msgId := 0, onReply := [], messageCallbacks := [] }

/-- Observable effect of dispatching one inbound envelope. -/
inductive DispatchEffect where
  | ignored
  | resolve (promise : Nat) (result : Option Value)
  | fanout (callbacks : List Nat)
  deriving DecidableEq

/-- `onMessage` in `cdp.ts` (lines 33–48): if closed, ignore; if the
envelope id has a pending entry, invoke and delete that entry (resolving
the awaiting promise with `msg.result`); otherwise fan the message out to
every registered callback. -/
def onMessage (st : ClientState) (msg : CDPMessage) : ClientState × DispatchEffect :=
  if st.closed then (st, .ignored)
  else
    match msg.id with
    | some i =>
      match jsGet st.onReply i with
      | some promise =>
        ({ st with onReply := jsDelete st.onReply i }, .resolve promise msg.result)
      | none => (st, .fanout st.messageCallbacks)
    | none => (st, .fanout st.messageCallbacks)

/-- Error thrown by `sendMessage` after `close()`. -/
inductive SendError where
  | connectionClosed
  deriving DecidableEq

/-- The outbound envelope written by `sendMessage`. -/
structure OutboundMsg where
  id : Nat
  method : String
  sessionId : Option String
  deriving DecidableEq

/-- `sendMessage` in `cdp.ts` (lines 55–81): throw if closed, otherwise
allocate `id = msgId++`, write the envelope, and register the awaiting
promise under `id` in the pending table. -/
def sendMessage (st : ClientState) (promise : Nat) (method : String)
    (sessionId : Option String) : Except SendError (ClientState × OutboundMsg) :=
  if st.closed then .error .connectionClosed
  else
    .ok ({ st with
             msgId := st.msgId + 1,
             onReply := st.onReply ++ [(st.msgId, promise)] },
         { id := st.msgId, method := method, sessionId := sessionId })

/-- `close` in `cdp.ts` (lines 173–176): set the closed flag (and delegate
to the transport close, which touches no client state). -/
def close (st : ClientState) : ClientState :=
  { st with closed := true }

/-- One external operation on the connection. -/
inductive Op where
  | send (promise : Nat) (method : String) (sessionId : Option String)
  | deliver (msg : CDPMessage)
  | closeOp
  deriving DecidableEq

/-- State transition of one operation. -/
def stepClient (st : ClientState) : Op → ClientState
  | .send promise m sid =>
    match sendMessage st promise m sid with
    | .ok (st1, _) => st1
    | .error _ => st
  | .deliver msg => (onMessage st msg).1
  | .closeOp => close st

/-- Run a sequence of operations from a state. -/
def runClient (st : ClientState) (ops : List Op) : ClientState :=
  ops.foldl stepClient st

/-- Pending table keys are pairwise distinct. -/
def keysNodup (tbl : List (Nat × Nat)) : Prop :=
  (tbl.map Prod.fst).Nodup

/-- Connection invariant: table keys distinct, and every key below the
counter (so a fresh counter value never collides). -/
def ClientInv (st : ClientState) : Prop :=
  keysNodup st.onReply ∧ ∀ p ∈ st.onReply, p.1 < st.msgId

/-- Issue a sequence of `sendMessage` calls, collecting the states and
assigned envelope ids. -/
def sendSeq (st : ClientState) : List Nat → Except SendError (ClientState × List Nat)
  | [] => .ok (st, [])
  | promise :: rest =>
    match sendMessage st promise "m" none with
    | .error e => .error e
    | .ok (st1, out) =>
      match sendSeq st1 rest with
      | .error e => .error e
      | .ok (st2, ids) => .ok (st2, out.id :: ids)

/-- The ids assigned by a sequence of `sendMessage` calls. -/
def sentIds (st : ClientState) (promises : List Nat) : Except SendError (List Nat) :=
  (sendSeq st promises).map (fun p => p.2)

/-- Actions the system handler in `index.ts` (lines 656–668) can take. -/
inductive SystemAction where
  | windowMessage (payload : Option String)
  | pageLoad
  | injectIPC
  deriving DecidableEq

/-- The single general message callback registered in `index.ts`
(lines 656–668): dispatches solely on the envelope's `method`. -/
def handleCDPMessage (msg : CDPMessage) : List SystemAction :=
  (if msg.method = some "Runtime.bindingCalled" ∧ msg.paramsName = some "_fluxDesktopSend"
   then [SystemAction.windowMessage msg.payload] else [])
  ++ (if msg.method = some "Page.frameStoppedLoading" then [SystemAction.pageLoad] else [])
  ++ (if msg.method = some "Runtime.executionContextCreated" then [SystemAction.injectIPC] else [])

/-! ### Pipe framing (`cdp.ts` lines 120–156)

Byte streams are lists of bytes (`List Nat`, values 0–255); decoded text is
a list of Unicode code points.  The data handler slices the raw chunk at
NUL bytes (`buf.indexOf(0)`) and decodes each slice *independently*
(`pending += buf.toString()`, `pending + buf.toString('utf8', start, end)`),
with `pending` accumulating already-decoded text across chunks — so a chunk
boundary inside a multi-byte UTF-8 character yields U+FFFD replacement
characters, exactly as `Buffer.toString` does. -/

/-- `buf.indexOf(0)` together with the two slices around it: `none` when the
buffer holds no NUL, otherwise the bytes before the first NUL and the bytes
after it. -/
def splitFirstNul : List Nat → Option (List Nat × List Nat)
  | [] => none
  | b :: rest =>
    if b = 0 then some ([], rest)
    else (splitFirstNul rest).map (fun p => (b :: p.1, p.2))

theorem splitFirstNul_length {buf seg rest : List Nat}
    (h : splitFirstNul buf = some (seg, rest)) : rest.length < buf.length := by
  induction buf generalizing seg rest with
  | nil => simp [splitFirstNul] at h
  | cons b tail ih =>
    simp only [splitFirstNul] at h
    split at h
    · cases h
      simp
    · cases htail : splitFirstNul tail with
      | none => rw [htail] at h; simp at h
      | some p =>
        obtain ⟨s1, r1⟩ := p
        rw [htail] at h
        simp only [Option.map_some'] at h
        cases h
        have := ih htail
        simp only [List.length_cons]
        omega

/-- Unicode scalar values (code points outside the surrogate range). -/
def isScalar (c : Nat) : Prop := c < 0x110000 ∧ ¬(0xD800 ≤ c ∧ c ≤ 0xDFFF)

instance (c : Nat) : Decidable (isScalar c) := by
  unfold isScalar
  infer_instance

/-- UTF-8 encoding of one scalar code point (the wire bytes produced by
`JSON.stringify` and `pipeWrite.write`). -/
def utf8EncodeChar (c : Nat) : List Nat :=
  if c < 0x80 then [c]
  else if c < 0x800 then [0xC0 + c / 64, 0x80 + c % 64]
  else if c < 0x10000 then
    [0xE0 + c / 4096, 0x80 + c / 64 % 64, 0x80 + c % 64]
  else
    [0xF0 + c / 262144, 0x80 + c / 4096 % 64, 0x80 + c / 64 % 64, 0x80 + c % 64]

/-- UTF-8 encoding of a text (list of scalar code points). -/
def utf8Encode (s : List Nat) : List Nat := (s.map utf8EncodeChar).flatten

/-- UTF-8 decoding with U+FFFD replacement, as `Buffer.toString('utf8')`
performs it (WHATWG decoder: lead/continuation ranges checked, a byte
failing a continuation check is reprocessed after emitting one replacement,
and a sequence truncated at end of input emits one replacement). -/
def utf8Decode : List Nat → List Nat
  | [] => []
  | b :: rest =>
    if b < 0x80 then b :: utf8Decode rest
    else if 0xC2 ≤ b ∧ b ≤ 0xDF then
      match rest with
      | [] => [0xFFFD]
      | c1 :: rest1 =>
        if 0x80 ≤ c1 ∧ c1 ≤ 0xBF then
          ((b - 0xC0) * 64 + (c1 - 0x80)) :: utf8Decode rest1
        else 0xFFFD :: utf8Decode (c1 :: rest1)
    else if 0xE0 ≤ b ∧ b ≤ 0xEF then
      match rest with
      | [] => [0xFFFD]
      | c1 :: rest1 =>
        if (if b = 0xE0 then 0xA0 else 0x80) ≤ c1 ∧ c1 ≤ (if b = 0xED then 0x9F else 0xBF) then
          match rest1 with
          | [] => [0xFFFD]
          | c2 :: rest2 =>
            if 0x80 ≤ c2 ∧ c2 ≤ 0xBF then
              ((b - 0xE0) * 4096 + (c1 - 0x80) * 64 + (c2 - 0x80)) :: utf8Decode rest2
            else 0xFFFD :: utf8Decode (c2 :: rest2)
        else 0xFFFD :: utf8Decode (c1 :: rest1)
    else if 0xF0 ≤ b ∧ b ≤ 0xF4 then
      match rest with
      | [] => [0xFFFD]
      | c1 :: rest1 =>
        if (if b = 0xF0 then 0x90 else 0x80) ≤ c1 ∧ c1 ≤ (if b = 0xF4 then 0x8F else 0xBF) then
          match rest1 with
          | [] => [0xFFFD]
          | c2 :: rest2 =>
            if 0x80 ≤ c2 ∧ c2 ≤ 0xBF then
              match rest2 with
              | [] => [0xFFFD]
              | c3 :: rest3 =>
                if 0x80 ≤ c3 ∧ c3 ≤ 0xBF then
                  ((b - 0xF0) * 262144 + (c1 - 0x80) * 4096 + (c2 - 0x80) * 64 + (c3 - 0x80))
                    :: utf8Decode rest3
                else 0xFFFD :: utf8Decode (c3 :: rest3)
            else 0xFFFD :: utf8Decode (c2 :: rest2)
        else 0xFFFD :: utf8Decode (c1 :: rest1)
    else 0xFFFD :: utf8Decode rest

/-- The `pipeRead.on('data')` handler in `cdp.ts` (lines 124–147) applied
to one chunk.  `pending` is the already-decoded text carried over from
earlier chunks; `buf` is the raw chunk.  With no NUL in the chunk, the
decoded chunk is appended to `pending` (`pending += buf.toString()`);
otherwise `pending ++ decode(bytes before the first NUL)` is dispatched
(`pending + buf.toString('utf8', start, end)`), `pending` is reset, and the
loop continues after the NUL; the trailing slice is decoded into the new
`pending` (`pending = buf.toString('utf8', start)`).  Each slice is decoded
independently, as in the source. -/
def handleDataUtf8 (pending buf : List Nat) : List (List Nat) × List Nat :=
  match h : splitFirstNul buf with
  | none => ([], pending ++ utf8Decode buf)
  | some (seg, rest) =>
    let r := handleDataUtf8 [] rest
    ((pending ++ utf8Decode seg) :: r.1, r.2)
termination_by buf.length
decreasing_by exact splitFirstNul_length h

/-- Byte-at-a-time restatement of the data handler (`frag` accumulates the
raw bytes of the current slice, decoded when a NUL or the chunk end is
reached); proved equal to `handleDataUtf8` in `handleDataUtf8_pipeScan` and
used for reasoning and evaluation. -/
def pipeScanUtf8 : List Nat → List Nat → List Nat → List (List Nat) × List Nat
  | pending, frag, [] => ([], pending ++ utf8Decode frag)
  | pending, frag, b :: rest =>
    if b = 0 then
      let r := pipeScanUtf8 [] [] rest
      ((pending ++ utf8Decode frag) :: r.1, r.2)
    else pipeScanUtf8 pending (frag ++ [b]) rest

/-- Feed a sequence of read chunks through the data handler, collecting all
dispatched messages (as decoded text) and the final decoded `pending`. -/
def processChunksUtf8 (pending : List Nat) : List (List Nat) → List (List Nat) × List Nat
  | [] => ([], pending)
  | c :: cs =>
    let r := handleDataUtf8 pending c
    let r1 := processChunksUtf8 r.2 cs
    (r.1 ++ r1.1, r1.2)

/-- `_send` in pipe mode (`cdp.ts` lines 151–154): write the message bytes,
then a single NUL byte. -/
def sendFrame (data : List Nat) : List Nat := data ++ [0]

/-- The wire image of a sequence of byte frames: each frame terminated by
one NUL. -/
def encodeFrames (frames : List (List Nat)) : List Nat :=
  (frames.map sendFrame).flatten

/-- A stream unit: one NUL terminator (`none`) or one encoded scalar
(`some c`).  Splitting the wire stream only between units is what "chunk
boundaries on UTF-8 character boundaries" means. -/
def unitBytes : Option Nat → List Nat
  | none => [0]
  | some c => utf8EncodeChar c

/-- The raw bytes of a chunk described as a list of whole units. -/
def chunkBytes (u : List (Option Nat)) : List Nat := (u.map unitBytes).flatten

/-- The unit sequence of one frame (its characters, then the NUL). -/
def frameDescs (f : List Nat) : List (Option Nat) := f.map some ++ [none]

/-- The unit sequence of a whole stream of frames. -/
def streamDescs (frames : List (List Nat)) : List (Option Nat) :=
  (frames.map frameDescs).flatten

/-- Well-formed unit: a NUL, or an encoded scalar other than U+0000. -/
def wfDesc : Option Nat → Prop
  | none => True
  | some c => isScalar c ∧ c ≠ 0

/-- Reference scanner at unit granularity: a NUL unit dispatches the
accumulated text, a character unit appends its code point. -/
def descScan : List Nat → List Nat → List (Option Nat) → List (List Nat) × List Nat
  | p, cs, [] => ([], p ++ cs)
  | p, cs, none :: us => ((p ++ cs) :: (descScan [] [] us).1, (descScan [] [] us).2)
  | p, cs, some c :: us => descScan p (cs ++ [c]) us

/-! ### Discovery polling (`cdp.ts` lines 84–118) -/

/-- Retry delay of `continualTrying` (`setTimeout(res, 200)`), in milliseconds. -/
def retryDelayMs : Nat := 200

/-- `continualTrying` in `cdp.ts` (lines 84–99), applied to the sequence of
outcomes of the successive attempts (`error` = the attempt threw): resolves
with the value of the first non-throwing attempt, together with the number
of failed attempts before it (each separated by `retryDelayMs`); `none` when
every attempt in the list throws (the loop keeps retrying, with no cap). -/
def continualTrying {α : Type} : List (Except Unit α) → Option (α × Nat)
  | [] => none
  | .ok a :: _ => some (a, 0)
  | .error _ :: rest => (continualTrying rest).map (fun p => (p.1, p.2 + 1))

/-- A target descriptor from `GET /json/list`. -/
structure TargetInfo where
  webSocketDebuggerUrl : String
  deriving DecidableEq

/-- `targets[0]` (`cdp.ts` line 108): `none` models JS `undefined` on an
empty list. -/
def selectTarget (targets : List TargetInfo) : Option TargetInfo := targets[0]?

/-- The socket-mode connection routine (`cdp.ts` lines 101–112) up to the
websocket URL: poll via `continualTrying`, then read
`targets[0].webSocketDebuggerUrl`.  The outer `Option` is `none` when
polling never resolves; the inner `Option` is `none` when the accepted
response has no first entry (the JS code then throws a TypeError reading
the URL off `undefined`). -/
def socketTargetUrl (attempts : List (Except Unit (List TargetInfo))) :
    Option (Option String × Nat) :=
  (continualTrying attempts).map
    (fun p => ((selectTarget p.1).map TargetInfo.webSocketDebuggerUrl, p.2))

/-! ### Post-setup CDP health check (`index.ts` lines 723–737) -/

/-- What the health check did to bridge construction. -/
inductive HealthOutcome where
  | validated
  | warned
  deriving DecidableEq

/-- The health check in `index.ts` (lines 723–737), applied to the outcome
of evaluating `typeof window` (`error` = the CDP call threw;
`ok v` = `healthCheck?.result?.value` was `v`): a throwing call aborts
construction with an error; a non-`'object'` value only logs a warning and
construction proceeds; `'object'` logs success. -/
def cdpHealthCheck (outcome : Except Unit (Option String)) : Except String HealthOutcome :=
  match outcome with
  | .error _ => .error "FluxDesktop requires functioning CDP connection"
  | .ok v => if v = some "object" then .ok .validated else .ok .warned

/-! ### IPC protocol (`idle.ts` lines 418–479, `scripts.ts` lines 27–81)

Host side and page side run the same receive logic; it is modelled once,
parametrised by the listener type `L` and an application function. -/

/-- An IPC data value, with JavaScript truthiness preserved. -/
inductive JSVal where
  | undefinedVal
  | jsnull
  | bool (b : Bool)
  | num (n : Int)
  | str (s : String)
  | obj (tag : Nat)
  deriving DecidableEq

/-- JavaScript truthiness of a value (the `!reply` / `if (reply)` checks). -/
def truthy : JSVal → Bool
  | .undefinedVal => false
  | .jsnull => false
  | .bool b => b
  | .num n => n != 0
  | .str s => s != ""
  | .obj _ => true

/-- An IPC message `{ id, type, data }` (string correlation id). -/
structure IPCMessage where
  id : String
  type : String
  data : JSVal
  deriving DecidableEq

/-- IPC-side state: pending reply table (`onIPCReply`) and the listener
registry (`ipcListeners`), on either side of the bridge. -/
structure IPCState (L : Type) where
  onIPCReply : List (String × Nat)
  ipcListeners : List (String × List L)

/-- The reply-accumulation loop over the listener return values
(`let reply; for (...) { const ret = await cb(data); if (!reply) reply = ret }`). -/
def foldReplies (rets : List JSVal) : JSVal :=
  rets.foldl (fun reply ret => if truthy reply then reply else ret) JSVal.undefinedVal

/-- Observable action of receiving one IPC message. -/
inductive IPCAction where
  | resolve (promise : Nat) (ty : String) (data : JSVal)
  | reply (data : JSVal) (id : String)
  | pong (id : String)
  deriving DecidableEq

/-- `onWindowMessage` in `idle.ts` (lines 441–460) = `ipc._receive` in
`scripts.ts` (lines 57–78): a message whose id has a pending entry resolves
and removes that entry; otherwise, if a listener list exists for the type,
every listener is invoked in order with the data, the accumulated reply is
sent back under the original id when truthy; in every remaining case a
`pong` acknowledgement is sent under the original id.  Returns the new
state, the list of listener return values (in invocation order), and the
action taken. -/
def ipcReceive {L : Type} (app : L → JSVal → JSVal) (st : IPCState L)
    (msg : IPCMessage) : IPCState L × List JSVal × IPCAction :=
  match jsGet st.onIPCReply msg.id with
  | some promise =>
    ({ st with onIPCReply := jsDelete st.onIPCReply msg.id }, [],
     .resolve promise msg.type msg.data)
  | none =>
    match jsGet st.ipcListeners msg.type with
    | some cbs =>
      let rets := cbs.map (fun cb => app cb msg.data)
      let reply := foldReplies rets
      (st, rets, if truthy reply then .reply reply msg.id else .pong msg.id)
    | none => (st, [], .pong msg.id)

/-- The message written by `sendToWindow('pong', null, id)`
(`idle.ts` lines 426–430, 459). -/
def pongMessage (id : String) : IPCMessage :=
  { id := id, type := "pong", data := JSVal.jsnull }

/-- JS `Array.prototype.indexOf`: index of the first occurrence, `none`
models `-1`. -/
def jsIndexOf {β : Type} [DecidableEq β] : List β → β → Option Nat
  | [], _ => none
  | x :: rest, y => if x = y then some 0 else (jsIndexOf rest y).map (· + 1)

/-- `ipcApi.removeListener` in `idle.ts` (lines 468–476): no list for the
type, or listener not found, returns `false` and changes nothing; otherwise
`splice(index, 1)` removes the entry at the first index and returns `true`. -/
def removeListener {L : Type} [DecidableEq L] (tbl : List (String × List L))
    (ty : String) (cb : L) : List (String × List L) × Bool :=
  match jsGet tbl ty with
  | none => (tbl, false)
  | some lst =>
    match jsIndexOf lst cb with
    | none => (tbl, false)
    | some i => (jsSet tbl ty (lst.eraseIdx i), true)

/-! ## Association-table lemmas -/

theorem jsGet_eq_none_of_not_mem {κ β : Type} [DecidableEq κ]
    {tbl : List (κ × β)} {k : κ} (h : k ∉ tbl.map Prod.fst) : jsGet tbl k = none := by
  induction tbl with
  | nil => rfl
  | cons p rest ih =>
    simp only [List.map_cons, List.mem_cons] at h
    push_neg at h
    simp only [jsGet]
    rw [if_neg (by exact fun hh => h.1 hh.symm)]
    exact ih h.2

theorem jsGet_jsDelete_self {κ β : Type} [DecidableEq κ]
    {tbl : List (κ × β)} {k : κ} (h : (tbl.map Prod.fst).Nodup) :
    jsGet (jsDelete tbl k) k = none := by
  induction tbl with
  | nil => rfl
  | cons p rest ih =>
    simp only [List.map_cons, List.nodup_cons] at h
    simp only [jsDelete]
    by_cases hk : p.1 = k
    · rw [if_pos hk]
      exact jsGet_eq_none_of_not_mem (by rw [← hk]; exact h.1)
    · rw [if_neg hk]
      simp only [jsGet]
      rw [if_neg hk]
      exact ih h.2

theorem jsDelete_sublist {κ β : Type} [DecidableEq κ] (tbl : List (κ × β)) (k : κ) :
    (jsDelete tbl k).Sublist tbl := by
  induction tbl with
  | nil => simp [jsDelete]
  | cons p rest ih =>
    simp only [jsDelete]
    by_cases hk : p.1 = k
    · rw [if_pos hk]
      exact List.sublist_cons_self p rest
    · rw [if_neg hk]
      exact ih.cons₂ p

/-! ## Client invariant (C1, C2 machinery) -/

theorem clientInv_init : ClientInv initClient := by
  constructor
  · exact List.nodup_nil
  · intro p hp
    simp [initClient] at hp

theorem clientInv_onMessage {st : ClientState} (h : ClientInv st) (msg : CDPMessage) :
    ClientInv (onMessage st msg).1 := by
  obtain ⟨hnd, hlt⟩ := h
  unfold onMessage
  split
  · exact ⟨hnd, hlt⟩
  · split
    · split
      · refine ⟨?_, ?_⟩
        · exact hnd.sublist ((jsDelete_sublist _ _).map Prod.fst)
        · intro p hp
          exact hlt p ((jsDelete_sublist _ _).mem hp)
      · exact ⟨hnd, hlt⟩
    · exact ⟨hnd, hlt⟩

theorem clientInv_sendMessage {st st1 : ClientState} {promise : Nat} {m : String}
    {sid : Option String} {out : OutboundMsg}
    (h : ClientInv st) (hsend : sendMessage st promise m sid = .ok (st1, out)) :
    ClientInv st1 := by
  obtain ⟨hnd, hlt⟩ := h
  unfold sendMessage at hsend
  split at hsend
  · cases hsend
  · cases hsend
    constructor
    · unfold keysNodup at hnd ⊢
      simp only [List.map_append, List.map_cons, List.map_nil]
      rw [List.nodup_append]
      refine ⟨hnd, List.nodup_singleton _, ?_⟩
      intro a ha hb
      simp only [List.mem_singleton] at hb
      subst hb
      obtain ⟨p, hp, hp1⟩ := List.mem_map.mp ha
      exact absurd (hp1 ▸ hlt p hp) (lt_irrefl _)
    · intro p hp
      simp only [List.mem_append, List.mem_singleton] at hp
      rcases hp with hp | hp
      · exact Nat.lt_succ_of_lt (hlt p hp)
      · subst hp
        exact Nat.lt_succ_self _

theorem clientInv_step {st : ClientState} (h : ClientInv st) (op : Op) :
    ClientInv (stepClient st op) := by
  cases op with
  | send promise m sid =>
    simp only [stepClient]
    cases hsend : sendMessage st promise m sid with
    | ok p => exact clientInv_sendMessage h hsend
    | error e => exact h
  | deliver msg => exact clientInv_onMessage h msg
  | closeOp => exact h

theorem clientInv_run (ops : List Op) {st : ClientState} (h : ClientInv st) :
    ClientInv (runClient st ops) := by
  induction ops generalizing st with
  | nil => exact h
  | cons op rest ih => exact ih (clientInv_step h op)

/-- **C1** — Reply correlation.  (a) In every state reachable by any
interleaving of sends, deliveries and closes, the pending-table keys are
pairwise distinct; (b) delivering an envelope whose `id` has a pending
entry invokes exactly that entry's promise with the envelope's `result`
field, removes the entry (so no entry for that id remains), and performs no
event fan-out; (c) delivering an envelope with no matching pending entry
leaves the table untouched and fans the message out to the general
callbacks, so a message is consumed as a reply or as an event, never both. -/
theorem cdp_reply_correlation :
    (∀ ops : List Op, keysNodup (runClient initClient ops).onReply)
    ∧ (∀ (st : ClientState) (msg : CDPMessage) (i promise : Nat),
        st.closed = false → keysNodup st.onReply →
        msg.id = some i → jsGet st.onReply i = some promise →
        onMessage st msg = ({ st with onReply := jsDelete st.onReply i },
                            .resolve promise msg.result)
        ∧ jsGet (jsDelete st.onReply i) i = none)
    ∧ (∀ (st : ClientState) (msg : CDPMessage),
        st.closed = false →
        (∀ i, msg.id = some i → jsGet st.onReply i = none) →
        onMessage st msg = (st, .fanout st.messageCallbacks)) := by
  refine ⟨?_, ?_, ?_⟩
  · intro ops
    exact (clientInv_run ops clientInv_init).1
  · intro st msg i promise hopen hnd hid hget
    constructor
    · simp only [onMessage, hopen, Bool.false_eq_true, if_false, hid, hget]
    · exact jsGet_jsDelete_self hnd
  · intro st msg hopen hnone
    cases hid : msg.id with
    | none => simp only [onMessage, hopen, Bool.false_eq_true, if_false, hid]
    | some i => simp only [onMessage, hopen, Bool.false_eq_true, if_false, hid, hnone i hid]

/-- Witness for `cdp_reply_correlation` at a concrete state and envelope. -/
theorem cdp_reply_correlation_witness :
    onMessage { closed := false, msgId := 2, onReply := [(0, 10), (1, 11)],
                messageCallbacks := [7] }
        { id := some 1, method := none, result := some 5 }
      = ({ closed := false, msgId := 2, onReply := [(0, 10)], messageCallbacks := [7] },
         .resolve 11 (some 5)) := by
  have h := (cdp_reply_correlation.2.1
    { closed := false, msgId := 2, onReply := [(0, 10), (1, 11)], messageCallbacks := [7] }
    { id := some 1, method := none, result := some 5 }
    1 11 rfl (by unfold keysNodup; decide) rfl (by decide)).1
  simpa [jsDelete] using h

/-! ## C2: id sequence machinery -/

theorem sendSeq_ids (ps : List Nat) :
    ∀ st : ClientState, st.closed = false →
    ∃ st1, sendSeq st ps = .ok (st1, List.range' st.msgId ps.length)
      ∧ st1.closed = false ∧ st1.msgId = st.msgId + ps.length := by
  induction ps with
  | nil => exact fun st h => ⟨st, rfl, h, rfl⟩
  | cons p rest ih =>
    intro st h
    obtain ⟨st1, hseq, hcl, hmsg⟩ :=
      ih { st with msgId := st.msgId + 1, onReply := st.onReply ++ [(st.msgId, p)] } h
    simp only [h] at hseq
    refine ⟨st1, ?_, hcl, by simp at hmsg ⊢; omega⟩
    simp only [sendSeq, sendMessage, h, Bool.false_eq_true, if_false]
    rw [hseq]
    simp [List.range'_succ]

theorem stepClient_msgId_mono (st : ClientState) (op : Op) :
    st.msgId ≤ (stepClient st op).msgId := by
  cases op with
  | send promise m sid =>
    simp only [stepClient]
    cases hsend : sendMessage st promise m sid with
    | ok p =>
      unfold sendMessage at hsend
      split at hsend
      · cases hsend
      · cases hsend
        exact Nat.le_succ _
    | error e => exact le_refl _
  | deliver msg =>
    simp only [stepClient]
    unfold onMessage
    split
    · exact le_refl _
    · split
      · split
        · exact le_refl _
        · exact le_refl _
      · exact le_refl _
  | closeOp => exact le_refl _

/-- **C2** — Assigned ids.  From a fresh connection, any sequence of `N`
`sendMessage` calls succeeds and assigns exactly the ids `0, 1, …, N − 1`
(so the `k`-th id is `k`: pairwise distinct, starting at 0, each one more
than its predecessor); and no operation ever decreases the private counter
(it is never reset for the lifetime of the connection). -/
theorem sendMessage_id_sequence (promises : List Nat) :
    sentIds initClient promises = .ok (List.range promises.length)
    ∧ (∀ k, k < promises.length → (List.range promises.length)[k]? = some k)
    ∧ (List.range promises.length).Nodup
    ∧ (∀ (st : ClientState) (op : Op), st.msgId ≤ (stepClient st op).msgId) := by
  refine ⟨?_, ?_, List.nodup_range _, stepClient_msgId_mono⟩
  · obtain ⟨st1, hseq, -, -⟩ := sendSeq_ids promises initClient rfl
    unfold sentIds
    rw [hseq]
    simp [initClient, Except.map, List.range_eq_range']
  · intro k hk
    simp [List.getElem?_range hk]

/-- Witness for `sendMessage_id_sequence`: three back-to-back calls get ids
0, 1, 2. -/
theorem sendMessage_id_sequence_witness :
    sentIds initClient [5, 6, 7] = .ok [0, 1, 2]
    ∧ (List.range 3)[1]? = some 1 := by
  have h := sendMessage_id_sequence [5, 6, 7]
  exact ⟨h.1, h.2.1 1 (by decide)⟩

/-- **C4** — Close semantics.  `close` only sets the closed flag: the
pending-reply table is left untouched (no pending promise is resolved or
rejected), and any `sendMessage` issued on the closed connection fails
immediately with the connection-closed error instead of registering
anything. -/
theorem close_semantics (st : ClientState) (promise : Nat) (m : String)
    (sid : Option String) :
    (close st).onReply = st.onReply
    ∧ (close st).closed = true
    ∧ sendMessage (close st) promise m sid = .error .connectionClosed := by
  exact ⟨rfl, rfl, rfl⟩

/-! ## C6: a no-pending, no-method envelope is still fanned out -/

/-- A state with two registered general callbacks and one unrelated pending
entry. -/
def garbageStateC6 : ClientState :=
  { closed := false, msgId := 6, onReply := [(3, 11)], messageCallbacks := [0, 1] }

/-- An inbound envelope with an unknown id and no `method`. -/
def garbageMsgC6 : CDPMessage :=
  { id := some 5, method := none, result := none }

/-- **C6 counterexample** — The claim says dispatch of such an envelope is
a silent no-op in which no event subscriber callback is invoked; in fact
`onMessage` fans it out to every registered general callback (here both of
them). -/
theorem garbage_message_fanned_out :
    (onMessage garbageStateC6 garbageMsgC6).2 = .fanout [0, 1]
    ∧ ([0, 1] : List Nat) ≠ [] := by
  exact ⟨rfl, by decide⟩

/-- **C6 (amended)** — Delivering an envelope whose id has no pending entry
and which carries no `method` resolves no pending promise and leaves the
table untouched, but it *is* fanned out to every registered general
callback; the system's only registered callback (`index.ts` 656–668)
dispatches purely on `method`, so it takes no action on such a message, and
no error is raised anywhere. -/
theorem garbage_message_no_action (st : ClientState) (msg : CDPMessage) (i : Nat)
    (hopen : st.closed = false) (hid : msg.id = some i)
    (hnp : jsGet st.onReply i = none) (hnm : msg.method = none) :
    onMessage st msg = (st, .fanout st.messageCallbacks)
    ∧ handleCDPMessage msg = [] := by
  constructor
  · simp only [onMessage, hopen, Bool.false_eq_true, if_false, hid, hnp]
  · simp [handleCDPMessage, hnm]

/-- Witness for `garbage_message_no_action` at the concrete garbage state. -/
theorem garbage_message_no_action_witness :
    onMessage garbageStateC6 garbageMsgC6 = (garbageStateC6, .fanout [0, 1])
    ∧ handleCDPMessage garbageMsgC6 = [] := by
  have h := garbage_message_no_action garbageStateC6 garbageMsgC6 5 rfl rfl
    (by decide) rfl
  exact ⟨h.1, h.2⟩

/-! ## C3: pipe frame reassembly -/

theorem splitFirstNul_none_iff {buf : List Nat} : splitFirstNul buf = none ↔ 0 ∉ buf := by
  induction buf with
  | nil => simp [splitFirstNul]
  | cons b rest ih =>
    by_cases hb : b = 0
    · subst hb
      simp [splitFirstNul]
    · have hstep : splitFirstNul (b :: rest)
          = (splitFirstNul rest).map (fun p => (b :: p.1, p.2)) := by
        simp [splitFirstNul, hb]
      rw [hstep]
      cases hr : splitFirstNul rest with
      | none =>
        simp only [Option.map_none']
        constructor
        · intro _
          simp only [List.mem_cons]
          push_neg
          exact ⟨fun hh => hb hh.symm, ih.mp hr⟩
        · intro _; trivial
      | some p =>
        simp only [Option.map_some']
        constructor
        · intro hh; cases hh
        · intro hh
          have hnr : 0 ∉ rest := fun hm => hh (List.mem_cons_of_mem _ hm)
          rw [ih.mpr hnr] at hr
          cases hr

theorem splitFirstNul_some_decomp {buf seg rest : List Nat}
    (h : splitFirstNul buf = some (seg, rest)) : buf = seg ++ 0 :: rest ∧ 0 ∉ seg := by
  induction buf generalizing seg rest with
  | nil => simp [splitFirstNul] at h
  | cons b tail ih =>
    by_cases hb : b = 0
    · subst hb
      simp only [splitFirstNul, if_pos rfl] at h
      cases h
      simp
    · have hstep : splitFirstNul (b :: tail)
          = (splitFirstNul tail).map (fun p => (b :: p.1, p.2)) := by
        simp [splitFirstNul, hb]
      rw [hstep] at h
      cases ht : splitFirstNul tail with
      | none => rw [ht] at h; cases h
      | some p =>
        rw [ht] at h
        simp only [Option.map_some'] at h
        cases h
        obtain ⟨hdec, hnn⟩ := ih ht
        constructor
        · rw [hdec]; rfl
        · simp only [List.mem_cons]
          push_neg
          exact ⟨fun hh => hb hh.symm, hnn⟩

set_option maxRecDepth 2000 in
theorem utf8Decode_ascii {b : Nat} (hb : b < 0x80) (rest : List Nat) :
    utf8Decode (b :: rest) = b :: utf8Decode rest := by
  rw [utf8Decode.eq_def]
  dsimp only
  rw [if_pos hb]

theorem utf8Decode_two {b c1 : Nat} (hb : 0xC2 ≤ b ∧ b ≤ 0xDF) (hc1 : 0x80 ≤ c1 ∧ c1 ≤ 0xBF)
    (rest : List Nat) :
    utf8Decode (b :: c1 :: rest) = ((b - 0xC0) * 64 + (c1 - 0x80)) :: utf8Decode rest := by
  rw [utf8Decode.eq_def]
  dsimp only
  rw [if_neg (by omega), if_pos hb, if_pos hc1]

theorem utf8Decode_three {b c1 c2 : Nat} (hb : 0xE0 ≤ b ∧ b ≤ 0xEF)
    (hc1 : (if b = 0xE0 then 0xA0 else 0x80) ≤ c1 ∧ c1 ≤ (if b = 0xED then 0x9F else 0xBF))
    (hc2 : 0x80 ≤ c2 ∧ c2 ≤ 0xBF) (rest : List Nat) :
    utf8Decode (b :: c1 :: c2 :: rest)
      = ((b - 0xE0) * 4096 + (c1 - 0x80) * 64 + (c2 - 0x80)) :: utf8Decode rest := by
  rw [utf8Decode.eq_def]
  dsimp only
  rw [if_neg (by omega), if_neg (by omega), if_pos hb, if_pos hc1, if_pos hc2]

theorem utf8Decode_four {b c1 c2 c3 : Nat} (hb : 0xF0 ≤ b ∧ b ≤ 0xF4)
    (hc1 : (if b = 0xF0 then 0x90 else 0x80) ≤ c1 ∧ c1 ≤ (if b = 0xF4 then 0x8F else 0xBF))
    (hc2 : 0x80 ≤ c2 ∧ c2 ≤ 0xBF) (hc3 : 0x80 ≤ c3 ∧ c3 ≤ 0xBF) (rest : List Nat) :
    utf8Decode (b :: c1 :: c2 :: c3 :: rest)
      = ((b - 0xF0) * 262144 + (c1 - 0x80) * 4096 + (c2 - 0x80) * 64 + (c3 - 0x80))
          :: utf8Decode rest := by
  rw [utf8Decode.eq_def]
  dsimp only
  rw [if_neg (by omega), if_neg (by omega), if_neg (by omega), if_pos hb, if_pos hc1,
    if_pos hc2, if_pos hc3]

set_option maxRecDepth 4000 in
theorem utf8Decode_encodeChar {c : Nat} (hs : isScalar c) (rest : List Nat) :
    utf8Decode (utf8EncodeChar c ++ rest) = c :: utf8Decode rest := by
  obtain ⟨h1, h2⟩ := hs
  by_cases hA : c < 0x80
  · rw [show utf8EncodeChar c = [c] from by unfold utf8EncodeChar; rw [if_pos hA]]
    rw [List.cons_append, List.nil_append, utf8Decode_ascii hA]
  · by_cases hB : c < 0x800
    · rw [show utf8EncodeChar c = [0xC0 + c / 64, 0x80 + c % 64] from by
        unfold utf8EncodeChar; rw [if_neg hA, if_pos hB]]
      rw [List.cons_append, List.cons_append, List.nil_append,
        utf8Decode_two (by omega) (by omega)]
      congr 1
      omega
    · by_cases hC : c < 0x10000
      · rw [show utf8EncodeChar c = [0xE0 + c / 4096, 0x80 + c / 64 % 64, 0x80 + c % 64] from by
          unfold utf8EncodeChar; rw [if_neg hA, if_neg hB, if_pos hC]]
        rw [List.cons_append, List.cons_append, List.cons_append, List.nil_append,
          utf8Decode_three (by omega) (by constructor <;> split <;> omega) (by omega)]
        congr 1
        omega
      · rw [show utf8EncodeChar c
            = [0xF0 + c / 262144, 0x80 + c / 4096 % 64, 0x80 + c / 64 % 64, 0x80 + c % 64] from by
          unfold utf8EncodeChar; rw [if_neg hA, if_neg hB, if_neg hC]]
        rw [List.cons_append, List.cons_append, List.cons_append, List.cons_append,
          List.nil_append,
          utf8Decode_four (by omega) (by constructor <;> split <;> omega) (by omega) (by omega)]
        congr 1
        omega

theorem utf8Decode_encode : ∀ (cs : List Nat), (∀ c ∈ cs, isScalar c) →
    utf8Decode (utf8Encode cs) = cs := by
  intro cs
  induction cs with
  | nil => intro _; rfl
  | cons c cs ih =>
    intro h
    have hc : isScalar c := h c (List.mem_cons_self _ _)
    have hcs : ∀ x ∈ cs, isScalar x := fun x hx => h x (List.mem_cons_of_mem _ hx)
    show utf8Decode ((utf8EncodeChar c :: cs.map utf8EncodeChar).flatten) = c :: cs
    rw [List.flatten_cons, utf8Decode_encodeChar hc]
    rw [show (cs.map utf8EncodeChar).flatten = utf8Encode cs from rfl, ih hcs]

theorem nul_not_mem_encodeChar {c : Nat} (hs : isScalar c) (hne : c ≠ 0) :
    0 ∉ utf8EncodeChar c := by
  obtain ⟨h1, h2⟩ := hs
  unfold utf8EncodeChar
  split
  · simp only [List.mem_singleton]
    exact fun hh => hne hh.symm
  · split
    · intro hm
      simp only [List.mem_cons, List.not_mem_nil, or_false] at hm
      omega
    · split
      · intro hm
        simp only [List.mem_cons, List.not_mem_nil, or_false] at hm
        omega
      · intro hm
        simp only [List.mem_cons, List.not_mem_nil, or_false] at hm
        omega

theorem utf8Encode_snoc (cs : List Nat) (c : Nat) :
    utf8Encode (cs ++ [c]) = utf8Encode cs ++ utf8EncodeChar c := by
  unfold utf8Encode
  rw [List.map_append, List.flatten_append]
  simp

theorem pipeScanUtf8_nonul {x : List Nat} (hx : 0 ∉ x) :
    ∀ (p frag y : List Nat), pipeScanUtf8 p frag (x ++ y) = pipeScanUtf8 p (frag ++ x) y := by
  induction x with
  | nil => intro p frag y; simp [pipeScanUtf8]
  | cons b tail ih =>
    intro p frag y
    have hb : b ≠ 0 := fun hh => hx (hh ▸ List.mem_cons_self b tail)
    have htail : 0 ∉ tail := fun hm => hx (List.mem_cons_of_mem _ hm)
    simp only [List.cons_append, pipeScanUtf8, if_neg hb, List.append_eq]
    rw [ih htail]
    simp

theorem pipeScanUtf8_nul (q frag z : List Nat) :
    pipeScanUtf8 q frag (0 :: z)
      = ((q ++ utf8Decode frag) :: (pipeScanUtf8 [] [] z).1, (pipeScanUtf8 [] [] z).2) := by
  simp [pipeScanUtf8]

theorem handleDataUtf8_eq : ∀ (n : Nat) (buf : List Nat), buf.length ≤ n →
    ∀ p, handleDataUtf8 p buf = pipeScanUtf8 p [] buf := by
  intro n
  induction n with
  | zero =>
    intro buf hlen p
    have hb : buf = [] := List.length_eq_zero.mp (Nat.le_zero.mp hlen)
    subst hb
    rw [handleDataUtf8]
    simp [splitFirstNul, pipeScanUtf8, utf8Decode]
  | succ n ih =>
    intro buf hlen p
    cases hs : splitFirstNul buf with
    | none =>
      rw [handleDataUtf8, hs]
      have hb : 0 ∉ buf := splitFirstNul_none_iff.mp hs
      have hps := pipeScanUtf8_nonul hb p [] []
      simp only [List.append_nil] at hps
      rw [hps]
      simp [pipeScanUtf8]
    | some pr =>
      obtain ⟨seg, rest⟩ := pr
      rw [handleDataUtf8, hs]
      dsimp only
      obtain ⟨hdec, hseg⟩ := splitFirstNul_some_decomp hs
      have hrlen : rest.length ≤ n := by
        have := splitFirstNul_length hs
        omega
      rw [ih rest hrlen [], hdec, pipeScanUtf8_nonul hseg p [] (0 :: rest)]
      simp only [List.nil_append]
      rw [show pipeScanUtf8 p seg (0 :: rest)
            = ((p ++ utf8Decode seg) :: (pipeScanUtf8 [] [] rest).1,
               (pipeScanUtf8 [] [] rest).2) from by simp [pipeScanUtf8]]

theorem handleDataUtf8_pipeScan (p buf : List Nat) :
    handleDataUtf8 p buf = pipeScanUtf8 p [] buf :=
  handleDataUtf8_eq buf.length buf (le_refl _) p

theorem descScan_congr : ∀ (us : List (Option Nat)) (p cs q ds : List Nat),
    p ++ cs = q ++ ds → descScan p cs us = descScan q ds us := by
  intro us
  induction us with
  | nil => intro p cs q ds h; simp only [descScan, h]
  | cons u us ih =>
    intro p cs q ds h
    cases u with
    | none => simp only [descScan, h]
    | some c =>
      simp only [descScan]
      exact ih p (cs ++ [c]) q (ds ++ [c]) (by rw [← List.append_assoc, ← List.append_assoc, h])

theorem pipeScanUtf8_units : ∀ (us : List (Option Nat)), (∀ u ∈ us, wfDesc u) →
    ∀ (p cs : List Nat), (∀ c ∈ cs, isScalar c) →
    pipeScanUtf8 p (utf8Encode cs) (chunkBytes us) = descScan p cs us := by
  intro us
  induction us with
  | nil =>
    intro _ p cs hcs
    simp only [chunkBytes, List.map_nil, List.flatten_nil, pipeScanUtf8, descScan]
    rw [utf8Decode_encode cs hcs]
  | cons u us ih =>
    intro hwf p cs hcs
    have hwfu : wfDesc u := hwf u (List.mem_cons_self _ _)
    have hwfus : ∀ x ∈ us, wfDesc x := fun x hx => hwf x (List.mem_cons_of_mem _ hx)
    cases u with
    | none =>
      show pipeScanUtf8 p (utf8Encode cs) (0 :: chunkBytes us) = _
      have h0 := ih hwfus [] [] (by intro c hc; cases hc)
      simp only [utf8Encode, List.map_nil, List.flatten_nil] at h0
      rw [pipeScanUtf8_nul, utf8Decode_encode cs hcs, h0]
      simp only [descScan]
    | some c =>
      obtain ⟨hsc, hne⟩ := hwfu
      show pipeScanUtf8 p (utf8Encode cs) (utf8EncodeChar c ++ chunkBytes us) = _
      rw [pipeScanUtf8_nonul (nul_not_mem_encodeChar hsc hne) p (utf8Encode cs) (chunkBytes us)]
      rw [← utf8Encode_snoc]
      simp only [descScan]
      exact ih hwfus p (cs ++ [c])
        (by
          intro x hx
          rcases List.mem_append.mp hx with hx | hx
          · exact hcs x hx
          · simp only [List.mem_singleton] at hx
            subst hx
            exact hsc)

theorem descScan_append : ∀ (xs : List (Option Nat)) (p cs : List Nat) (ys : List (Option Nat)),
    descScan p cs (xs ++ ys)
      = ((descScan p cs xs).1 ++ (descScan (descScan p cs xs).2 [] ys).1,
         (descScan (descScan p cs xs).2 [] ys).2) := by
  intro xs
  induction xs with
  | nil =>
    intro p cs ys
    simp only [List.nil_append, descScan, List.nil_append]
    rw [descScan_congr ys (p ++ cs) [] p cs (by simp)]
  | cons u xs ih =>
    intro p cs ys
    cases u with
    | none =>
      simp only [List.cons_append, descScan, List.append_eq]
      rw [ih [] [] ys]
    | some c =>
      simp only [List.cons_append, descScan, List.append_eq]
      exact ih p (cs ++ [c]) ys

theorem processChunksUtf8_desc : ∀ (uchunks : List (List (Option Nat))),
    (∀ u ∈ uchunks.flatten, wfDesc u) →
    ∀ p, processChunksUtf8 p (uchunks.map chunkBytes) = descScan p [] uchunks.flatten := by
  intro uchunks
  induction uchunks with
  | nil =>
    intro _ p
    simp [processChunksUtf8, descScan]
  | cons u us ih =>
    intro hwf p
    have hwfu : ∀ x ∈ u, wfDesc x := by
      intro x hx
      exact hwf x (by simp only [List.flatten_cons, List.mem_append]; exact Or.inl hx)
    have hwfus : ∀ x ∈ us.flatten, wfDesc x := by
      intro x hx
      exact hwf x (by simp only [List.flatten_cons, List.mem_append]; exact Or.inr hx)
    simp only [List.map_cons, processChunksUtf8, List.flatten_cons]
    rw [handleDataUtf8_pipeScan]
    have hcrux := pipeScanUtf8_units u hwfu p [] (by intro c hc; cases hc)
    simp only [utf8Encode, List.map_nil, List.flatten_nil] at hcrux
    rw [hcrux, ih hwfus, descScan_append]

theorem descScan_chars : ∀ (f : List Nat) (p cs : List Nat) (rest : List (Option Nat)),
    descScan p cs (f.map some ++ rest) = descScan p (cs ++ f) rest := by
  intro f
  induction f with
  | nil => intro p cs rest; simp
  | cons c f ih =>
    intro p cs rest
    simp only [List.map_cons, List.cons_append, descScan, List.append_eq]
    rw [ih]
    exact descScan_congr rest p ((cs ++ [c]) ++ f) p (cs ++ c :: f) (by simp)

theorem descScan_stream : ∀ (frames : List (List Nat)),
    descScan [] [] (streamDescs frames) = (frames, []) := by
  intro frames
  induction frames with
  | nil => simp [streamDescs, descScan]
  | cons f fs ih =>
    have hd : streamDescs (f :: fs) = f.map some ++ (none :: streamDescs fs) := by
      simp [streamDescs, frameDescs]
    rw [hd, descScan_chars f [] [] (none :: streamDescs fs)]
    simp only [descScan]
    rw [ih]
    simp

theorem chunkBytes_flatten : ∀ (uchunks : List (List (Option Nat))),
    (uchunks.map chunkBytes).flatten = (uchunks.flatten.map unitBytes).flatten := by
  intro uchunks
  induction uchunks with
  | nil => rfl
  | cons u us ih =>
    simp only [List.map_cons, List.flatten_cons, List.map_append, List.flatten_append, ih,
      chunkBytes]

theorem streamDescs_bytes : ∀ (frames : List (List Nat)),
    ((streamDescs frames).map unitBytes).flatten = encodeFrames (frames.map utf8Encode) := by
  intro frames
  induction frames with
  | nil => rfl
  | cons f fs ih =>
    simp only [streamDescs, List.map_cons, List.flatten_cons, List.map_append,
      List.flatten_append, frameDescs, encodeFrames, sendFrame] at ih ⊢
    rw [ih]
    have hcomp : (unitBytes ∘ some : Nat → List Nat) = utf8EncodeChar := by
      funext c
      rfl
    simp [List.map_map, hcomp, utf8Encode, unitBytes]

theorem streamDescs_wf {frames : List (List Nat)}
    (hfr : ∀ f ∈ frames, ∀ c ∈ f, isScalar c ∧ c ≠ 0) :
    ∀ u ∈ streamDescs frames, wfDesc u := by
  intro u hu
  unfold streamDescs at hu
  rw [List.mem_flatten] at hu
  obtain ⟨l, hl, hul⟩ := hu
  rw [List.mem_map] at hl
  obtain ⟨f, hf, hfl⟩ := hl
  subst hfl
  unfold frameDescs at hul
  rcases List.mem_append.mp hul with hus | hun
  · rw [List.mem_map] at hus
    obtain ⟨c, hc, hcu⟩ := hus
    subst hcu
    exact hfr f hf c hc
  · simp only [List.mem_singleton] at hun
    subst hun
    trivial

/-- **C3 counterexample** — The claim says any split of the byte stream into
read chunks, including splits mid-frame, dispatches the original frame
content.  Here the single frame is the two-byte UTF-8 encoding of U+00E9
(followed by its NUL), split between its two bytes: because each chunk
slice is decoded independently, the dispatched message is two U+FFFD
replacement characters, not the original character. -/
theorem pipe_multibyte_split_corrupts :
    utf8Encode [0xE9] = [0xC3, 0xA9]
    ∧ ([[0xC3], [0xA9, 0]] : List (List Nat)).flatten = encodeFrames [[0xC3, 0xA9]]
    ∧ utf8Decode [0xC3, 0xA9] = [0xE9]
    ∧ processChunksUtf8 [] [[0xC3], [0xA9, 0]] = ([[0xFFFD, 0xFFFD]], [])
    ∧ [[0xFFFD, 0xFFFD]] ≠ [[0xE9]] := by
  refine ⟨by decide, by decide, by decide, ?_, by decide⟩
  simp only [processChunksUtf8, handleDataUtf8_pipeScan]
  decide

/-- **C3 (amended)** — Pipe frame reassembly.  For every sequence of frames
of nonzero Unicode scalars and every split of the NUL-terminated UTF-8 wire
stream into read chunks whose boundaries fall on character boundaries
(mid-frame splits and multiple frames per chunk included, described by unit
chunks), the data handler dispatches exactly the original frames’ text, in
order, each exactly once, with nothing left pending; the processed bytes
are exactly the NUL-terminated encoded frames; and every outbound pipe send
writes the message bytes immediately followed by a single NUL byte.
(A split inside a multi-byte character instead corrupts that frame to
replacement characters — see the counterexample.) -/
theorem pipe_frame_reassembly_utf8 (frames : List (List Nat))
    (uchunks : List (List (Option Nat)))
    (hfr : ∀ f ∈ frames, ∀ c ∈ f, isScalar c ∧ c ≠ 0)
    (hsplit : uchunks.flatten = streamDescs frames) :
    processChunksUtf8 [] (uchunks.map chunkBytes) = (frames, [])
    ∧ (uchunks.map chunkBytes).flatten = encodeFrames (frames.map utf8Encode)
    ∧ ∀ data : List Nat, sendFrame data = data ++ [0] := by
  have hwf : ∀ u ∈ uchunks.flatten, wfDesc u := by
    rw [hsplit]
    exact streamDescs_wf hfr
  refine ⟨?_, ?_, fun data => rfl⟩
  · rw [processChunksUtf8_desc uchunks hwf [], hsplit, descScan_stream]
  · rw [chunkBytes_flatten, hsplit, streamDescs_bytes]

/-- Witness for `pipe_frame_reassembly_utf8`: one frame "é1" (a two-byte
character then an ASCII byte), split mid-frame between the two characters. -/
theorem pipe_frame_reassembly_utf8_witness :
    processChunksUtf8 [] [[0xC3, 0xA9], [0x31, 0]] = ([[0xE9, 0x31]], [])
    ∧ ∀ data : List Nat, sendFrame data = data ++ [0] := by
  have h := pipe_frame_reassembly_utf8 [[0xE9, 0x31]] [[some 0xE9], [some 0x31, none]]
    (by decide) (by decide)
  have hmap : ([[some 0xE9], [some 0x31, none]] : List (List (Option Nat))).map chunkBytes
      = [[0xC3, 0xA9], [0x31, 0]] := by decide
  refine ⟨?_, h.2.2⟩
  have h1 := h.1
  rw [hmap] at h1
  exact h1

/-! ## C5: post-setup health check -/

/-- **C5 counterexample** — The claim says a health check that returns a
value other than the expected type tag aborts bridge construction with an
error; in fact the code only logs a warning and construction succeeds
(`console.warn` branch, `index.ts` line 732). -/
theorem health_check_mismatch_not_fatal :
    cdpHealthCheck (.ok (some "undefined")) = .ok .warned
    ∧ (cdpHealthCheck (.ok (some "undefined"))).isOk = true := by
  constructor <;> rfl

/-- **C5 (amended)** — The liveness check aborts bridge construction with an
error exactly when the `typeof window` evaluation call itself throws; when
the call succeeds, a result of `'object'` validates the connection and any
other result only produces a warning, with construction succeeding either
way. -/
theorem health_check_semantics :
    (∀ u : Unit, cdpHealthCheck (.error u)
        = .error "FluxDesktop requires functioning CDP connection")
    ∧ cdpHealthCheck (.ok (some "object")) = .ok .validated
    ∧ (∀ v : Option String, v ≠ some "object" → cdpHealthCheck (.ok v) = .ok .warned) := by
  refine ⟨fun u => rfl, rfl, fun v hv => ?_⟩
  simp [cdpHealthCheck, hv]

/-- Witness for `health_check_semantics` at concrete outcomes. -/
theorem health_check_semantics_witness :
    cdpHealthCheck (.error ()) = .error "FluxDesktop requires functioning CDP connection"
    ∧ cdpHealthCheck (.ok none) = .ok .warned :=
  ⟨health_check_semantics.1 (), health_check_semantics.2.2 none (by simp)⟩

/-! ## C7: discovery polling -/

/-- Attempt sequence whose first attempt succeeds with an empty target
list, while a second attempt would have produced a target. -/
def emptyThenGood : List (Except Unit (List TargetInfo)) :=
  [.ok [], .ok [{ webSocketDebuggerUrl := "ws" }]]

/-- **C7 counterexample** — The claim says an empty-list response causes
another retry (polling continues until the list is non-empty); in fact
`continualTrying` accepts the empty list at attempt 0 with no retry, and
target selection then yields nothing (the JS code throws reading
`webSocketDebuggerUrl` off `undefined`) instead of polling again. -/
theorem discovery_empty_list_not_retried :
    continualTrying emptyThenGood = some ([], 0)
    ∧ socketTargetUrl emptyThenGood = some (none, 0) := by
  constructor <;> rfl

theorem continualTrying_replicate {α : Type} (n : Nat) (v : α)
    (rest : List (Except Unit α)) :
    continualTrying (List.replicate n (.error ()) ++ .ok v :: rest) = some (v, n) := by
  induction n with
  | zero => rfl
  | succ n ih => simp [List.replicate_succ, continualTrying, ih]

/-- **C7 (amended)** — The connection routine polls the discovery endpoint
at a fixed 200ms interval, retrying exactly the attempts that throw
(connection/parse failures), with no retry cap: after any number `n` of
failed attempts, the first non-throwing response is accepted as-is — even
an empty list, in which case no websocket URL is obtained — and otherwise
the websocket URL of the first entry is used. -/
theorem discovery_retry_semantics (n : Nat) (ts : List TargetInfo)
    (rest : List (Except Unit (List TargetInfo))) :
    continualTrying (List.replicate n (.error ()) ++ .ok ts :: rest) = some (ts, n)
    ∧ socketTargetUrl (List.replicate n (.error ()) ++ .ok ts :: rest)
        = some ((ts[0]?).map TargetInfo.webSocketDebuggerUrl, n)
    ∧ retryDelayMs = 200 := by
  refine ⟨continualTrying_replicate n ts rest, ?_, rfl⟩
  unfold socketTargetUrl
  rw [continualTrying_replicate n ts rest]
  rfl

/-! ## C8, C9: IPC fan-out and acknowledgement -/

theorem foldl_reply_truthy {a : JSVal} (h : truthy a = true) :
    ∀ l : List JSVal, l.foldl (fun reply ret => if truthy reply then reply else ret) a = a := by
  intro l
  induction l with
  | nil => rfl
  | cons y ys ih =>
    rw [List.foldl_cons]
    simp only [h, if_true]
    exact ih

theorem foldl_reply_find : ∀ (xs : List JSVal) (x : JSVal), truthy x = false →
    ∀ r, xs.find? truthy = some r →
    xs.foldl (fun reply ret => if truthy reply then reply else ret) x = r := by
  intro xs
  induction xs with
  | nil =>
    intro x hx r h
    simp [List.find?] at h
  | cons y ys ih =>
    intro x hx r h
    rw [List.foldl_cons]
    have hstep : (if truthy x then x else y) = y := by simp [hx]
    rw [hstep]
    cases hy : truthy y with
    | true =>
      rw [List.find?_cons_of_pos _ hy] at h
      cases h
      exact foldl_reply_truthy hy ys
    | false =>
      rw [List.find?_cons_of_neg _ (by simp [hy])] at h
      exact ih y hy r h

theorem foldReplies_find {rets : List JSVal} {r : JSVal}
    (h : rets.find? truthy = some r) : foldReplies rets = r :=
  foldl_reply_find rets .undefinedVal rfl r h

theorem foldl_reply_none : ∀ (xs : List JSVal) (x : JSVal), truthy x = false →
    xs.find? truthy = none →
    truthy (xs.foldl (fun reply ret => if truthy reply then reply else ret) x) = false := by
  intro xs
  induction xs with
  | nil => intro x hx _; exact hx
  | cons y ys ih =>
    intro x hx h
    cases hy : truthy y with
    | true => rw [List.find?_cons_of_pos _ hy] at h; cases h
    | false =>
      rw [List.find?_cons_of_neg _ (by simp [hy])] at h
      rw [List.foldl_cons]
      have hstep : (if truthy x then x else y) = y := by simp [hx]
      rw [hstep]
      exact ih y hy h

theorem foldReplies_none {rets : List JSVal}
    (h : rets.find? truthy = none) : truthy (foldReplies rets) = false :=
  foldl_reply_none rets .undefinedVal rfl h

/-- **C8** — Fan-out, first-truthy-reply-wins.  For an unsolicited message
(no pending entry for its id) of a type with a registered listener list,
every listener is invoked, in registration order, with the message data
(the returned invocation list is exactly the listeners mapped over the
data); and when some listener returns a truthy value, the reply sent back
under the original id carries the value of the *first* such listener —
falsy returns (undefined, null, false, 0, empty string) are skipped, and
listeners returning nothing cause no error. -/
theorem ipc_fanout_first_truthy_reply {L : Type} (app : L → JSVal → JSVal)
    (st : IPCState L) (msg : IPCMessage) (cbs : List L) (r : JSVal)
    (hnp : jsGet st.onIPCReply msg.id = none)
    (hl : jsGet st.ipcListeners msg.type = some cbs)
    (hr : (cbs.map (fun cb => app cb msg.data)).find? truthy = some r) :
    ipcReceive app st msg
      = (st, cbs.map (fun cb => app cb msg.data), .reply r msg.id) := by
  have htr : truthy r = true := List.find?_some hr
  simp only [ipcReceive, hnp, hl]
  rw [foldReplies_find hr]
  simp [htr]

/-- Sample listener table for the C8 witness: listener 1 replies, listeners
0 and 2 return `undefined`. -/
def app3 : Nat → JSVal → JSVal :=
  fun i _ => if i = 1 then .str ("two") else .undefinedVal

/-- Witness for `ipc_fanout_first_truthy_reply`: three listeners, the
second being the first to return a truthy value. -/
theorem ipc_fanout_first_truthy_reply_witness :
    ipcReceive app3 { onIPCReply := [], ipcListeners := [("chan", [0, 1, 2])] }
        { id := "r1", type := "chan", data := .num 3 }
      = ({ onIPCReply := [], ipcListeners := [("chan", [0, 1, 2])] },
         [.undefinedVal, .str "two", .undefinedVal], .reply (.str "two") "r1") := by
  have h := ipc_fanout_first_truthy_reply app3
    { onIPCReply := [], ipcListeners := [("chan", [0, 1, 2])] }
    { id := "r1", type := "chan", data := .num 3 }
    [0, 1, 2] (.str "two") rfl rfl rfl
  simpa [app3] using h

/-- **C9** — Fire-and-forget acknowledgement.  An unsolicited message whose
type has no registered listener list, or whose listeners all return falsy
values, is acknowledged with a `pong` under the original id; and on the
sender side, receiving that pong message (type `'pong'`, data `null`)
resolves the sender's pending entry for that id with data `null`, removing
the entry — so the sender's awaiting promise resolves with `null` rather
than hanging. -/
theorem ipc_pong_acknowledgement {L : Type} (app : L → JSVal → JSVal)
    (st : IPCState L) (msg : IPCMessage)
    (hnp : jsGet st.onIPCReply msg.id = none)
    (hz : jsGet st.ipcListeners msg.type = none
          ∨ ∃ cbs, jsGet st.ipcListeners msg.type = some cbs
              ∧ (cbs.map (fun cb => app cb msg.data)).find? truthy = none) :
    (ipcReceive app st msg).2.2 = .pong msg.id
    ∧ ∀ (L2 : Type) (app2 : L2 → JSVal → JSVal) (stS : IPCState L2) (k : Nat),
        jsGet stS.onIPCReply msg.id = some k →
        ipcReceive app2 stS (pongMessage msg.id)
          = ({ stS with onIPCReply := jsDelete stS.onIPCReply msg.id }, [],
             .resolve k "pong" JSVal.jsnull) := by
  constructor
  · rcases hz with hz | ⟨cbs, hl, hfind⟩
    · simp [ipcReceive, hnp, hz]
    · have hf : truthy (foldReplies (cbs.map (fun cb => app cb msg.data))) = false :=
        foldReplies_none hfind
      simp [ipcReceive, hnp, hl, hf]
  · intro L2 app2 stS k hk
    simp [ipcReceive, pongMessage, hk]

/-- Witness for `ipc_pong_acknowledgement`: a type with no listeners; the
sender has promise 3 pending under the same id. -/
theorem ipc_pong_acknowledgement_witness :
    (ipcReceive app3 { onIPCReply := [], ipcListeners := [] }
        { id := "p1", type := "nochan", data := .num 3 }).2.2 = .pong "p1"
    ∧ ipcReceive app3 { onIPCReply := [("p1", 3)], ipcListeners := [] }
        (pongMessage "p1")
        = ({ onIPCReply := [], ipcListeners := [] }, [],
           .resolve 3 "pong" JSVal.jsnull) := by
  have h := ipc_pong_acknowledgement app3
    { onIPCReply := [], ipcListeners := [] }
    { id := "p1", type := "nochan", data := .num 3 }
    rfl (Or.inl rfl)
  refine ⟨h.1, ?_⟩
  have h2 := h.2 Nat app3 { onIPCReply := [("p1", 3)], ipcListeners := [] } 3 rfl
  simpa [jsDelete] using h2

/-! ## C10: removeListener -/

theorem jsIndexOf_eq_none_iff {β : Type} [DecidableEq β] {l : List β} {x : β} :
    jsIndexOf l x = none ↔ x ∉ l := by
  induction l with
  | nil => simp [jsIndexOf]
  | cons y ys ih =>
    by_cases hy : y = x
    · subst hy
      simp [jsIndexOf]
    · simp only [jsIndexOf, if_neg hy, List.mem_cons]
      cases hr : jsIndexOf ys x with
      | none =>
        simp only [Option.map_none', true_iff]
        push_neg
        exact ⟨fun hh => hy hh.symm, ih.mp hr⟩
      | some j =>
        simp only [Option.map_some']
        constructor
        · intro hh; cases hh
        · intro hh
          push_neg at hh
          rw [ih.mpr hh.2] at hr
          cases hr

theorem jsIndexOf_some_decomp {β : Type} [DecidableEq β] :
    ∀ {l : List β} {x : β} {i : Nat}, jsIndexOf l x = some i →
    ∃ l1 l2, l = l1 ++ x :: l2 ∧ x ∉ l1 ∧ l1.length = i ∧ l.eraseIdx i = l1 ++ l2 := by
  intro l
  induction l with
  | nil => intro x i h; simp [jsIndexOf] at h
  | cons y ys ih =>
    intro x i h
    by_cases hy : y = x
    · subst hy
      simp only [jsIndexOf, if_pos rfl] at h
      cases h
      exact ⟨[], ys, rfl, by simp, rfl, rfl⟩
    · simp only [jsIndexOf, if_neg hy] at h
      cases hr : jsIndexOf ys x with
      | none => rw [hr] at h; cases h
      | some j =>
        rw [hr] at h
        simp only [Option.map_some'] at h
        cases h
        obtain ⟨l1, l2, hdec, hnm, hlen, herase⟩ := ih hr
        refine ⟨y :: l1, l2, by rw [hdec]; rfl, ?_, by simp [hlen], ?_⟩
        · simp only [List.mem_cons]
          push_neg
          exact ⟨fun hh => hy hh.symm, hnm⟩
        · simp only [List.eraseIdx_cons_succ, herase]
          rfl

theorem jsGet_jsSet_self {κ β : Type} [DecidableEq κ] (tbl : List (κ × β)) (k : κ) (v : β) :
    jsGet (jsSet tbl k v) k = some v := by
  induction tbl with
  | nil => simp [jsSet, jsGet]
  | cons p rest ih =>
    by_cases hk : p.1 = k
    · simp [jsSet, hk, jsGet]
    · obtain ⟨k1, v1⟩ := p
      simp only [jsSet]
      rw [if_neg hk]
      simp only [jsGet]
      rw [if_neg hk]
      exact ih

theorem jsGet_jsSet_other {κ β : Type} [DecidableEq κ] (tbl : List (κ × β))
    {k t : κ} (v : β) (h : t ≠ k) : jsGet (jsSet tbl k v) t = jsGet tbl t := by
  induction tbl with
  | nil =>
    simp only [jsSet, jsGet]
    rw [if_neg (fun hh => h hh.symm)]
  | cons p rest ih =>
    obtain ⟨k1, v1⟩ := p
    by_cases hk : k1 = k
    · simp only [jsSet]
      rw [if_pos hk]
      simp only [jsGet]
      rw [if_neg (fun hh => h hh.symm), if_neg (by rw [hk]; exact fun hh => h hh.symm)]
    · simp only [jsSet]
      rw [if_neg hk]
      simp only [jsGet]
      by_cases ht : k1 = t
      · rw [if_pos ht, if_pos ht]
      · rw [if_neg ht, if_neg ht]
        exact ih

/-- **C10** — `removeListener` semantics.  When `cb` is registered for
`ty`, the call returns `true` and removes exactly the first occurrence of
`cb` from that type's list (the list decomposes as `l1 ++ cb :: l2` with
`cb ∉ l1`, and becomes `l1 ++ l2`), leaving every other type's list
unchanged; when no list exists for `ty`, or `cb` is not in the list, the
call returns `false` and the registry is completely unchanged. -/
theorem removeListener_spec {L : Type} [DecidableEq L]
    (tbl : List (String × List L)) (ty : String) (cb : L) :
    (∀ lst, jsGet tbl ty = some lst → cb ∈ lst →
      ∃ l1 l2, lst = l1 ++ cb :: l2 ∧ cb ∉ l1
        ∧ removeListener tbl ty cb = (jsSet tbl ty (l1 ++ l2), true)
        ∧ jsGet (removeListener tbl ty cb).1 ty = some (l1 ++ l2)
        ∧ ∀ t, t ≠ ty → jsGet (removeListener tbl ty cb).1 t = jsGet tbl t)
    ∧ (jsGet tbl ty = none → removeListener tbl ty cb = (tbl, false))
    ∧ (∀ lst, jsGet tbl ty = some lst → cb ∉ lst →
        removeListener tbl ty cb = (tbl, false)) := by
  refine ⟨?_, ?_, ?_⟩
  · intro lst hget hmem
    cases hidx : jsIndexOf lst cb with
    | none => exact absurd hmem (jsIndexOf_eq_none_iff.mp hidx)
    | some i =>
      obtain ⟨l1, l2, hdec, hnm, hlen, herase⟩ := jsIndexOf_some_decomp hidx
      have hrl : removeListener tbl ty cb = (jsSet tbl ty (l1 ++ l2), true) := by
        simp only [removeListener, hget, hidx, herase]
      refine ⟨l1, l2, hdec, hnm, hrl, ?_, ?_⟩
      · rw [hrl]
        exact jsGet_jsSet_self tbl ty (l1 ++ l2)
      · intro t ht
        rw [hrl]
        exact jsGet_jsSet_other tbl (l1 ++ l2) ht
  · intro hget
    simp only [removeListener, hget]
  · intro lst hget hmem
    simp only [removeListener, hget, jsIndexOf_eq_none_iff.mpr hmem]

/-- Witness for `removeListener_spec` on a concrete registry: removing a
present listener (first occurrence only), and the `false` cases. -/
theorem removeListener_spec_witness :
    removeListener [("a", [1, 2, 1]), ("b", [3])] "a" 1 = ([("a", [2, 1]), ("b", [3])], true)
    ∧ jsGet (removeListener [("a", [1, 2, 1]), ("b", [3])] "a" 1).1 "b" = some [3]
    ∧ removeListener [("a", [1, 2, 1]), ("b", [3])] "a" 9
        = ([("a", [1, 2, 1]), ("b", [3])], false)
    ∧ removeListener [("a", [1, 2, 1]), ("b", [3])] "c" 1
        = ([("a", [1, 2, 1]), ("b", [3])], false) := by
  have h := removeListener_spec [("a", [1, 2, 1]), ("b", [3])] "a" (1 : Nat)
  obtain ⟨l1, l2, hdec, hnm, hrl, hself, hother⟩ :=
    h.1 [1, 2, 1] (by simp [jsGet]) (by simp)
  have hl1 : l1 = [] := by
    cases hl : l1 with
    | nil => rfl
    | cons z zs =>
      rw [hl] at hdec hnm
      have h1 : z = 1 := by
        have := congrArg (fun l => l[0]?) hdec
        simpa using this.symm
      exact absurd (h1 ▸ List.mem_cons_self z zs) (fun hh => hnm hh)
  have hl2 : l2 = [2, 1] := by
    rw [hl1] at hdec
    symm
    simpa using hdec
  subst hl1 hl2
  refine ⟨by simpa [jsSet] using hrl, ?_, ?_, ?_⟩
  · rw [hrl]
    simp [jsSet, jsGet]
  · exact (removeListener_spec [("a", [1, 2, 1]), ("b", [3])] "a" (9 : Nat)).2.2
      [1, 2, 1] (by simp [jsGet]) (by simp)
  · exact (removeListener_spec [("a", [1, 2, 1]), ("b", [3])] "c" (1 : Nat)).2.1
      (by simp [jsGet])

end FluxDesktop
